import Mathlib

/-!
Verification development for the Chronotab scheduling core: a shallow
embedding of the occurrence calculators, the alarm (timer) registrar, the
missed-occurrence reconciler and the run/clear bookkeeping, translated from
the repository's background service worker and scheduler utility module.

Modelling conventions:
* An instant is a `Nat`, milliseconds since the epoch of the host's local
  clock.  The embedding fixes a DST-free local clock with a constant offset
  of zero, under which the JavaScript sequence
  `d = new Date(t); d.setHours(h, m, 0, 0)` denotes
  `dayStart t + h * msPerHour + m * msPerMinute`, `d.setDate(d.getDate() + k)`
  denotes adding `k * msPerDay`, and `d.getDay()` denotes
  `(t / msPerDay + 4) % 7` (the epoch day, 1970-01-01, is a Thursday).
* JavaScript truthiness of a possibly-absent number (`undefined`, `null` or
  `0` are falsy) is `optTruthy : Option Nat → Bool`.
* `parseInt(s, 10)` is modelled by `jsParseInt`: optional leading blanks, an
  optional sign, then the longest digit run; no digits gives `NaN`,
  modelled as `none`.
* The `%` on `Int` below is Euclidean; for the weekday arithmetic in the
  weekly calculators the left operand is nonnegative for every weekday value
  the UI can store (1–7) and every `getDay()` value (0–6), where the
  JavaScript remainder agrees with the Euclidean one.
-/

/-- Milliseconds per minute. -/
def msPerMinute : Nat := 60000

/-- Milliseconds per hour. -/
def msPerHour : Nat := 3600000

/-- Milliseconds per day. -/
def msPerDay : Nat := 86400000

/-- Milliseconds per week. -/
def msPerWeek : Nat := 7 * msPerDay

/-- The tombstone retention window of `pruneClearedMissedAlarms`:
`30 * 24 * 60 * 60 * 1000` milliseconds. -/
def thirtyDaysMs : Nat := 30 * 24 * 60 * 60 * 1000

/-- Index of the local calendar day containing instant `t`. -/
def dayIndex (t : Nat) : Nat := t / msPerDay

/-- Local midnight of the day containing `t` (what `setHours(0,0,0,0)` yields). -/
def dayStart (t : Nat) : Nat := dayIndex t * msPerDay

/-- Local hour of day of instant `t` (what `getHours()` yields). -/
def hourOf (t : Nat) : Nat := t % msPerDay / msPerHour

/-- Local minute of instant `t` (what `getMinutes()` yields). -/
def minuteOf (t : Nat) : Nat := t % msPerDay % msPerHour / msPerMinute

/-- Local weekday of instant `t` (what `getDay()` yields: 0 = Sunday …
6 = Saturday; the epoch day is a Thursday, hence the `+ 4`). -/
def jsGetDay (t : Nat) : Nat := (dayIndex t + 4) % 7

/-- Millisecond offset from local midnight of the wall-clock time `h:m`. -/
def timeOffsetMs (h m : Nat) : Nat := h * msPerHour + m * msPerMinute

/-- JavaScript truthiness of a number-or-absent value: `undefined`/`null`
and `0` are falsy. -/
def optTruthy (o : Option Nat) : Bool :=
  match o with
  | none => false
  | some n => n != 0

/-- Numeric value of a decimal digit character. -/
def digitVal (c : Char) : Nat := c.toNat - 48

/-- `parseInt(s, 10)`: skip leading blanks, read an optional sign, then the
longest run of decimal digits; `none` models `NaN` (no digits at all). -/
def jsParseInt (l : List Char) : Option Int :=
  let trimmed := l.dropWhile (fun c => c == ' ')
  let signAndRest : Int × List Char :=
    match trimmed with
    | '-' :: rest => (-1, rest)
    | '+' :: rest => (1, rest)
    | _ => (1, trimmed)
  let ds := signAndRest.2.takeWhile Char.isDigit
  if ds.isEmpty then none
  else some (signAndRest.1 * Int.ofNat (ds.foldl (fun acc c => acc * 10 + digitVal c) 0))

/-- `String.prototype.split` with a one-character separator: `""` gives
`[""]`, a leading/trailing/doubled separator gives empty segments. -/
def splitOnChar (sep : Char) : List Char → List (List Char)
  | [] => [[]]
  | c :: rest =>
    let r := splitOnChar sep rest
    if c = sep then [] :: r
    else
      match r with
      | [] => [[c]]
      | h :: t => (c :: h) :: t

/-- The ISO-handling prologue shared verbatim by all four calculator
functions: if the string contains a `'T'`, the part after the first `'T'`
must contain a `':'` and its first five characters become the string to
parse; otherwise the whole string is parsed. -/
def extractTimePart (l : List Char) : Option (List Char) :=
  if l.any (fun c => c == 'T') then
    match splitOnChar 'T' l with
    | _ :: p1 :: _ => if p1.any (fun c => c == ':') then some (p1.take 5) else none
    | _ => none
  else some l

/-- The time-string validation shared verbatim by all four calculator
functions: extract the `HH:mm` part, split on `':'`, `parseInt` the first
two segments (a missing second segment parses as `NaN`), and reject
`NaN` or an hour outside 0–23 or a minute outside 0–59. -/
def parseClockTime (timeStr : String) : Option (Nat × Nat) :=
  match extractTimePart timeStr.data with
  | none => none
  | some chars =>
    let parts := splitOnChar ':' chars
    match jsParseInt (parts.getD 0 []), jsParseInt (parts.getD 1 []) with
    | some h, some m =>
      if h < 0 ∨ h > 23 ∨ m < 0 ∨ m > 59 then none
      else some (h.toNat, m.toNat)
    | some _, none => none
    | none, _ => none

/-- `getNextOccurrenceFrom(timeStr, fromTimestamp)` from the background
worker: the next instant at wall-clock `timeStr` strictly after `fromTs` —
the candidate on `fromTs`'s day, advanced one day when it is `≤ fromTs`.
(The source's `isNaN` guards are unreachable in this numeric model.) -/
def getNextOccurrenceFrom (timeStr : String) (fromTs : Nat) : Option Nat :=
  match parseClockTime timeStr with
  | none => none
  | some (h, m) =>
    let next := dayStart fromTs + timeOffsetMs h m
    if next ≤ fromTs then some (next + msPerDay) else some next

/-- One weekday's candidate inside `getNextWeeklyOccurrenceFrom`: the
instant at `h:m` on the next calendar day with `getDay() = dayOfWeek`
(counting from `fromTs`'s day), advanced a week when it is `≤ fromTs`. -/
def weeklyCandidateFrom (h m : Nat) (dayOfWeek : Int) (fromTs : Nat) : Nat :=
  let currentDay : Int := jsGetDay fromTs
  let daysToAdd : Nat := ((dayOfWeek - currentDay + 7) % 7).toNat
  let candidate := dayStart fromTs + daysToAdd * msPerDay + timeOffsetMs h m
  if candidate ≤ fromTs then candidate + msPerWeek else candidate

/-- `getNextWeeklyOccurrenceFrom(timeStr, daysOfWeek, fromTimestamp)` from
the background worker: the least weekday candidate strictly after `fromTs`
(`earliestNext` starts at `Infinity`, modelled `none`; an empty weekday
list leaves it there and yields `null`). -/
def getNextWeeklyOccurrenceFrom (timeStr : String) (daysOfWeek : List Int)
    (fromTs : Nat) : Option Nat :=
  match parseClockTime timeStr with
  | none => none
  | some (h, m) =>
    daysOfWeek.foldl (fun earliest dow =>
      let c := weeklyCandidateFrom h m dow fromTs
      match earliest with
      | none => some c
      | some e => if c < e then some c else some e) none

/-- `getNextOccurrence(timeStr)` from the scheduler module, with the
`Date.now()` it reads made an explicit `now` parameter: next instant at
wall-clock `timeStr` strictly after `now`, today or tomorrow. -/
def getNextOccurrence (timeStr : String) (now : Nat) : Option Nat :=
  match parseClockTime timeStr with
  | none => none
  | some (h, m) =>
    let next := dayStart now + timeOffsetMs h m
    some (if next ≤ now then next + msPerDay else next)

/-- `getNextWeeklyOccurrence(timeStr, dayOfWeek)` from the scheduler
module, with `Date.now()` made explicit: the instant at `h:m` on the next
day with `getDay() = dayOfWeek`; if that day is today but the time has
passed, a week is added, and a final safety check adds another week if the
result is still `≤ now`. -/
def getNextWeeklyOccurrence (timeStr : String) (dayOfWeek : Int) (now : Nat) :
    Option Nat :=
  match parseClockTime timeStr with
  | none => none
  | some (h, m) =>
    let next0 := dayStart now + timeOffsetMs h m
    let currentDay : Int := jsGetDay now
    let d0 : Nat := ((dayOfWeek - currentDay + 7) % 7).toNat
    let daysToAdd : Nat := if d0 = 0 ∧ next0 ≤ now then 7 else d0
    let next1 := dayStart now + daysToAdd * msPerDay + timeOffsetMs h m
    some (if next1 ≤ now then next1 + msPerWeek else next1)

/-- A stored schedule, as the UI saves it and the engine consumes it.
`time` keeps its string form (`HH:mm` or `YYYY-MM-DDTHH:mm`); `repeats`
models the source field `repeat` (a Lean keyword) and keeps its string form
(`"once"`, `"daily"` or `"weekly"`); `dayOfWeek` holds the
weekday numbers the editor stores (Monday = 1 … Sunday = 7). -/
structure Schedule where
  id : String
  name : String
  urls : List String
  time : String
  repeats : String
  dayOfWeek : List Int
  lastRun : Option Nat
  calculatedWhen : Option Nat
deriving DecidableEq

/-- An entry of the missed-alarms accumulator before the notification flag
is attached (the objects pushed by `checkMissedAlarmsOnStartup`). -/
structure RawMissed where
  scheduleId : String
  scheduleName : String
  missedRunTime : Nat
deriving DecidableEq

/-- A persisted missed-occurrence entry
(`chronotab_missed_alarms_data`). -/
structure MissedEntry where
  scheduleId : String
  scheduleName : String
  missedRunTime : Nat
  hasBeenNotified : Bool
deriving DecidableEq

/-- A tombstone in the cleared log (`chronotab_cleared_missed_alarms`). -/
structure ClearedEntry where
  scheduleId : String
  missedRunTime : Nat
  clearedAt : Nat
deriving DecidableEq

/-- One `chrome.alarms.create` call: its name, its `when` instant, and its
`periodInMinutes` when periodic. -/
structure AlarmSpec where
  name : String
  whenMs : Nat
  periodInMinutes : Option Nat
deriving DecidableEq

/-- The `calculatedWhen` maintenance pass of `registerAlarms`: a `once`
schedule gets `calculatedWhen` from `getNextOccurrence(schedule.time)`
(deleted when that is `null`); every other schedule has it deleted. -/
def updateOnceCalculatedWhen (now : Nat) (s : Schedule) : Schedule :=
  if s.repeats = "once" then
    match getNextOccurrence s.time now with
    | some w => { s with calculatedWhen := some w }
    | none => { s with calculatedWhen := none }
  else { s with calculatedWhen := none }

/-- The alarm-creation pass of `registerAlarms` for one (already updated)
schedule: `once` → a single alarm at `calculatedWhen` when that is truthy,
in the future and not behind `lastRun`; `daily` → one alarm at the next
daily occurrence with a 1440-minute period; `weekly` with a non-empty
weekday list → one alarm per listed weekday, named `id-dow`, at that
weekday's next occurrence with a 10080-minute period.  The `if (when)`
truthiness guards are the `w ≠ 0` tests. -/
def alarmsForSchedule (now : Nat) (s : Schedule) : List AlarmSpec :=
  if s.repeats = "once" then
    match s.calculatedWhen with
    | some cw =>
      if cw ≠ 0 ∧ now < cw ∧ (optTruthy s.lastRun = false ∨ s.lastRun.getD 0 < cw) then
        [⟨s.id, cw, none⟩]
      else []
    | none => []
  else if s.repeats = "daily" then
    match getNextOccurrence s.time now with
    | some w => if w ≠ 0 then [⟨s.id, w, some 1440⟩] else []
    | none => []
  else if s.repeats = "weekly" ∧ s.dayOfWeek ≠ [] then
    s.dayOfWeek.foldr (fun dow acc =>
      (match getNextWeeklyOccurrence s.time dow now with
       | some w => if w ≠ 0 then [⟨s.id ++ "-" ++ toString dow, w, some 10080⟩] else []
       | none => []) ++ acc) []
  else []

/-- `registerAlarms()` from the scheduler module, with `Date.now()` and the
stored schedule list made explicit: recompute `calculatedWhen` for every
schedule, clear all alarms (so the result list below is the complete alarm
set), and create the alarms of `alarmsForSchedule` for each updated
schedule.  Returns the updated schedule list (what is persisted back when
anything changed) and the created alarms in creation order. -/
def registerAlarmsModel (now : Nat) (schedules : List Schedule) :
    List Schedule × List AlarmSpec :=
  let updated := schedules.map (updateOnceCalculatedWhen now)
  (updated, updated.foldr (fun s acc => alarmsForSchedule now s ++ acc) [])

/-- `pruneClearedMissedAlarms(clearedList)` with `Date.now()` explicit:
keep tombstones with `now - clearedAt < 30 days`.  (`Nat` subtraction
truncates at zero, which matches the JavaScript comparison also when
`clearedAt` exceeds `now`.) -/
def pruneClearedMissedAlarms (now : Nat) (clearedList : List ClearedEntry) :
    List ClearedEntry :=
  clearedList.filter (fun entry => now - entry.clearedAt < thirtyDaysMs)

/-- The once-schedule branch of the reconciler: missed when
`calculatedWhen` is truthy, strictly before `now`, and `lastRun` is falsy
or strictly before `calculatedWhen`. -/
def onceMissed (now : Nat) (s : Schedule) : List RawMissed :=
  match s.calculatedWhen with
  | some cw =>
    if cw ≠ 0 ∧ cw < now ∧ (optTruthy s.lastRun = false ∨ s.lastRun.getD 0 < cw) then
      [⟨s.id, s.name, cw⟩]
    else []
  | none => []

/-- The per-iteration candidate of the reconciler's walk: the next daily or
weekly occurrence strictly after `potential`; any other repeat kind (or a
weekly schedule with no weekdays) takes the loop's `break` arm, modelled as
`none`. -/
def computeNextFor (s : Schedule) (potential : Nat) : Option Nat :=
  if s.repeats = "daily" then getNextOccurrenceFrom s.time potential
  else if s.repeats = "weekly" ∧ s.dayOfWeek ≠ [] then
    getNextWeeklyOccurrenceFrom s.time s.dayOfWeek potential
  else none

/-- The reconciler's `while (potentialNextRunTime < now)` walk.  The `fuel`
argument makes the recursion structural; `missedRawFor` passes
`now - potential₀`, which bounds the iteration count: every computed
candidate is strictly greater than `potential` (`computeNextFor_gt` below),
so after `now - potential₀` iterations `potential` has reached `now` and
the source loop would exit with the same accumulated best value. -/
def missedLoop (s : Schedule) (now : Nat) :
    Nat → Nat → Option Nat → Option Nat
  | 0, _, best => best
  | fuel + 1, potential, best =>
    if potential < now then
      match computeNextFor s potential with
      | some next =>
        if next ≠ 0 ∧ next < now then
          missedLoop s now fuel next
            (if optTruthy s.lastRun = false ∨ s.lastRun.getD 0 < next then some next
             else best)
        else best
      | none => best
    else best

/-- The per-schedule part of `checkMissedAlarmsOnStartup`: skip a schedule
with a falsy id; classify a `once` schedule via `onceMissed`; for a
recurring schedule walk forward from `lastRun || 0` and keep only the
latest missed occurrence found. -/
def missedRawFor (now : Nat) (s : Schedule) : List RawMissed :=
  if s.id = "" then []
  else if s.repeats = "once" then onceMissed now s
  else
    let lastActual := s.lastRun.getD 0
    match missedLoop s now (now - lastActual) lastActual none with
    | some t => [⟨s.id, s.name, t⟩]
    | none => []

/-- Key equality of two accumulator entries, the
`` `${scheduleId}-${missedRunTime}` `` map key of the source (scheduleId
plus a decimal number, so key equality coincides with pairwise field
equality). -/
def sameKey (a b : RawMissed) : Bool :=
  a.scheduleId == b.scheduleId && a.missedRunTime == b.missedRunTime

/-- One insertion into the dedup `Map`: an existing key keeps its position
and takes the new value; a new key is appended. -/
def upsertByKey (acc : List RawMissed) (x : RawMissed) : List RawMissed :=
  if acc.any (sameKey x) then acc.map (fun y => if sameKey x y then x else y)
  else acc ++ [x]

/-- `Array.from(new Map(list.map(m => [key, m])).values())`: deduplicate by
(scheduleId, missedRunTime), preserving first-insertion order. -/
def jsMapDedup (l : List RawMissed) : List RawMissed :=
  l.foldl upsertByKey []

/-- Attach the notification flag to a freshly computed missed occurrence:
carried forward from the first persisted entry with the same key, `false`
for a new entry. -/
def carryFlag (persisted : List MissedEntry) (cur : RawMissed) : MissedEntry :=
  match persisted.find? (fun p =>
      p.scheduleId == cur.scheduleId && p.missedRunTime == cur.missedRunTime) with
  | some p => ⟨cur.scheduleId, cur.scheduleName, cur.missedRunTime, p.hasBeenNotified⟩
  | none => ⟨cur.scheduleId, cur.scheduleName, cur.missedRunTime, false⟩

/-- Set `hasBeenNotified` on the first entry with the given key (the
source's `find` followed by an in-place flag update). -/
def setNotifiedFirst (sid : String) (t : Nat) : List MissedEntry → List MissedEntry
  | [] => []
  | e :: rest =>
    if e.scheduleId == sid && e.missedRunTime == t then
      { e with hasBeenNotified := true } :: rest
    else e :: setNotifiedFirst sid t rest

/-- After the grouped notification fires, every batched entry's counterpart
in the new data is flagged notified. -/
def markNotified (batch : List MissedEntry) (l : List MissedEntry) :
    List MissedEntry :=
  batch.foldl (fun acc b => setNotifiedFirst b.scheduleId b.missedRunTime acc) l

/-- Result of one reconciliation pass: the missed-alarm list persisted back
(the key is removed when it is empty), the entries batched into the single
grouped notification (empty when no notification fires), and the pruned
tombstone log persisted back. -/
structure ReconcileResult where
  pendingOut : List MissedEntry
  notified : List MissedEntry
  clearedOut : List ClearedEntry
deriving DecidableEq

/-- The reconciler's `missedAlarmsAccumulator`: per-schedule misses, in
schedule order. -/
def accumulateMissed (now : Nat) (schedules : List Schedule) : List RawMissed :=
  schedules.foldl (fun acc s => acc ++ missedRawFor now s) []

/-- The reconciler's `activeMissedAlarms`: the deduplicated accumulator
with every entry whose key appears in the pruned tombstone log dropped. -/
def activeMissedOf (schedules : List Schedule) (now : Nat)
    (clearedList : List ClearedEntry) : List RawMissed :=
  (jsMapDedup (accumulateMissed now schedules)).filter (fun missed =>
    !((pruneClearedMissedAlarms now clearedList).any (fun c =>
      c.scheduleId == missed.scheduleId && c.missedRunTime == missed.missedRunTime)))

/-- The reconciler's `newMissedAlarmsData` before the notification step:
active misses with the notification flag carried forward. -/
def newDataOf (schedules : List Schedule) (now : Nat)
    (clearedList : List ClearedEntry) (persisted : List MissedEntry) :
    List MissedEntry :=
  (activeMissedOf schedules now clearedList).map (carryFlag persisted)

/-- The reconciler's `alarmsRequiringNotification`: the entries (copied
before flagging) that the single grouped notification reports. -/
def batchOf (schedules : List Schedule) (now : Nat)
    (clearedList : List ClearedEntry) (persisted : List MissedEntry) :
    List MissedEntry :=
  (newDataOf schedules now clearedList persisted).filter
    (fun e => e.hasBeenNotified == false)

/-- `checkMissedAlarmsOnStartup` after its enabled-flag gate, with the
stored state and `Date.now()` made explicit parameters.  An empty schedule
list returns early (clearing pending data and leaving the tombstone log
untouched); otherwise: accumulate per-schedule misses, deduplicate by key,
prune the tombstone log and drop tombstoned entries, carry notification
flags forward from the persisted list, batch the unnotified entries into
one grouped notification, and mark them notified. -/
def checkMissedAlarms (schedules : List Schedule) (now : Nat)
    (clearedList : List ClearedEntry) (persisted : List MissedEntry) :
    ReconcileResult :=
  if schedules.isEmpty then ⟨[], [], clearedList⟩
  else
    let newData := newDataOf schedules now clearedList persisted
    let batch := batchOf schedules now clearedList persisted
    ⟨if batch.isEmpty then newData else markNotified batch newData, batch,
     pruneClearedMissedAlarms now clearedList⟩

/-- The operations that touch a schedule's run history: a live alarm fire
or user-initiated run (`lastRun = Date.now()`), clearing one missed entry
at instant `t`, the clear-all handler visiting this schedule's missed
instants in list order, and a reconciliation pass (which never writes the
schedule). -/
inductive RunOp where
  | runNow (now : Nat)
  | clearEntry (t : Nat)
  | clearAll (ts : List Nat)
  | reconcile
deriving DecidableEq

/-- The guarded `lastRun` update of the clear handlers: overwrite only when
`lastRun` is falsy or the cleared instant is strictly greater. -/
def clearStep (s : Schedule) (t : Nat) : Schedule :=
  if optTruthy s.lastRun = false ∨ t > s.lastRun.getD 0 then
    { s with lastRun := some t }
  else s

/-- Apply one run-history operation to a schedule. -/
def applyOp (s : Schedule) : RunOp → Schedule
  | RunOp.runNow now => { s with lastRun := some now }
  | RunOp.clearEntry t => clearStep s t
  | RunOp.clearAll ts => ts.foldl clearStep s
  | RunOp.reconcile => s

/-- Apply a sequence of run-history operations. -/
def applyOps (s : Schedule) (ops : List RunOp) : Schedule :=
  ops.foldl applyOp s

/-- The schedule's effective last-run instant (`lastRun || 0`). -/
def lastRunD (s : Schedule) : Nat := s.lastRun.getD 0

/-- The clock-sanity condition of one operation: a `runNow` reads a
`Date.now()` that is not behind the schedule's `lastRun` at that point
(runs happen in real time, after whatever set `lastRun` earlier); the
other operations carry no clock reading to constrain. -/
def runOpClockOk (s : Schedule) : RunOp → Bool
  | RunOp.runNow n => lastRunD s ≤ n
  | RunOp.clearEntry _ => true
  | RunOp.clearAll _ => true
  | RunOp.reconcile => true

/-- A monotone wall clock over a whole operation sequence. -/
def monotoneRunB : Schedule → List RunOp → Bool
  | _, [] => true
  | s, op :: rest => runOpClockOk s op && monotoneRunB (applyOp s op) rest

/-- Scenario constants: day 20000 of the local epoch is the "today" of the
concrete scenarios below; `t9A` is today 09:00 and `nowA` today 14:00. -/
def t9A : Nat := 20000 * msPerDay + 9 * msPerHour

/-- Today 14:00, the reconciliation instant of Scenario A. -/
def nowA : Nat := 20000 * msPerDay + 14 * msPerHour

/-- Scenario A schedule: daily at 09:00, last run three days before `nowA`
(at 14:00 that day). -/
def schedA : Schedule :=
  ⟨"sched-a", "Morning", ["https://example.com"], "09:00", "daily", [],
   some (19997 * msPerDay + 14 * msPerHour), none⟩

/-- A tombstone for Scenario A's missed occurrence, cleared at `nowA`. -/
def clearedA : ClearedEntry := ⟨"sched-a", t9A, nowA⟩

/-- A persisted pending entry for Scenario A's missed occurrence, already
notified. -/
def persistedA : MissedEntry := ⟨"sched-a", "Morning", t9A, true⟩

/-- Scenario C schedule: a `once` schedule whose full anchor
(2020-01-05 09:00) lies years before `nowA`, with `lastRun` unset. -/
def sC2 : Schedule :=
  ⟨"sched-c", "Newsletter", ["https://example.com"], "2020-01-05T09:00",
   "once", [], none, none⟩

/-- Tomorrow 09:00 relative to `nowA`: what the registrar actually stores
in `sC2.calculatedWhen` (the date part of the anchor is ignored). -/
def wC2 : Nat := 20001 * msPerDay + 9 * msPerHour

/-- Scenario B schedule: weekly at 09:00 on Monday and Wednesday (stored
as 1 and 3). -/
def schedB : Schedule :=
  ⟨"sched-b", "Standup", ["https://example.com"], "09:00", "weekly", [1, 3],
   none, none⟩

/-- Scenario B's "now": day 5 of the local epoch is a Tuesday
(`jsGetDay = 2`), at 10:00. -/
def nowB : Nat := 5 * msPerDay + 10 * msPerHour

/-- Boundary schedule for the once-classification: `calculatedWhen` equals
the reconciliation instant `nowA` exactly, `lastRun` unset. -/
def sC7 : Schedule :=
  ⟨"sched-7", "Boundary", ["https://example.com"], "2020-01-01T09:00",
   "once", [], none, some nowA⟩

/-- A schedule for exercising the run-history operations. -/
def s6 : Schedule :=
  ⟨"sched-6", "Mono", ["https://example.com"], "09:00", "daily", [], none, none⟩

/-- A run/clear/reconcile sequence: a run at `nowA`, a backward clear (at
`t9A < nowA`, which the guard ignores), a reconciliation, and a clear-all
visiting a forward and a backward instant. -/
def ops6 : List RunOp :=
  [RunOp.runNow nowA, RunOp.clearEntry t9A, RunOp.reconcile,
   RunOp.clearAll [nowA + 5, t9A]]

/-- A successful parse yields an hour in 0–23 and a minute in 0–59. -/
theorem parseClockTime_bounds {s : String} {h m : Nat}
    (hp : parseClockTime s = some (h, m)) : h ≤ 23 ∧ m ≤ 59 := by
  unfold parseClockTime at hp
  split at hp
  · exact absurd hp (by simp)
  · dsimp only at hp
    split at hp
    · split at hp
      · exact absurd hp (by simp)
      · rename_i hi mi hrange
        simp only [Option.some.injEq, Prod.mk.injEq] at hp
        obtain ⟨hh, hm⟩ := hp
        subst hh; subst hm
        push_neg at hrange
        omega
    · exact absurd hp (by simp)
    · exact absurd hp (by simp)

/-- The wall-clock offset of a valid time is less than a day. -/
theorem timeOffsetMs_lt {h m : Nat} (hh : h ≤ 23) (hm : m ≤ 59) :
    timeOffsetMs h m < msPerDay := by
  unfold timeOffsetMs msPerHour msPerMinute msPerDay
  omega

/-- An instant lies between its day's midnight and the next midnight. -/
theorem dayStart_le_lt (t : Nat) : dayStart t ≤ t ∧ t < dayStart t + msPerDay := by
  unfold dayStart dayIndex msPerDay
  omega

/-- Hour, minute and day index of an instant built as a whole number of
days plus a valid wall-clock offset. -/
theorem clock_fields_of_aligned (k : Nat) {h m : Nat} (hh : h ≤ 23) (hm : m ≤ 59) :
    hourOf (k * msPerDay + timeOffsetMs h m) = h ∧
    minuteOf (k * msPerDay + timeOffsetMs h m) = m ∧
    dayIndex (k * msPerDay + timeOffsetMs h m) = k := by
  unfold hourOf minuteOf dayIndex timeOffsetMs msPerDay msPerHour msPerMinute
  omega

/-- `getNextOccurrenceFrom` only returns instants strictly after `fromTs`. -/
theorem getNextOccurrenceFrom_gt {ts : String} {f n : Nat}
    (h : getNextOccurrenceFrom ts f = some n) : f < n := by
  unfold getNextOccurrenceFrom at h
  split at h
  · exact absurd h (by simp)
  · rename_i h' m' _
    dsimp only at h
    split at h <;> simp only [Option.some.injEq] at h <;> subst h
    · have := dayStart_le_lt f
      omega
    · omega

/-- Every weekday candidate of the weekly walk is strictly after `fromTs`. -/
theorem weeklyCandidateFrom_gt (h m : Nat) (dow : Int) (f : Nat) :
    f < weeklyCandidateFrom h m dow f := by
  unfold weeklyCandidateFrom
  dsimp only
  have hd := dayStart_le_lt f
  split
  · unfold msPerWeek; omega
  · omega

/-- `getNextWeeklyOccurrenceFrom` only returns instants strictly after
`fromTs`. -/
theorem getNextWeeklyOccurrenceFrom_gt {ts : String} {days : List Int} {f n : Nat}
    (h : getNextWeeklyOccurrenceFrom ts days f = some n) : f < n := by
  unfold getNextWeeklyOccurrenceFrom at h
  split at h
  · exact absurd h (by simp)
  · rename_i h' m' _
    suffices key : ∀ (l : List Int) (acc : Option Nat),
        (∀ x, acc = some x → f < x) →
        ∀ x, (l.foldl (fun earliest dow =>
          let c := weeklyCandidateFrom h' m' dow f
          match earliest with
          | none => some c
          | some e => if c < e then some c else some e) acc) = some x → f < x by
      exact key days none (by intro x hx; cases hx) n h
    intro l
    induction l with
    | nil => intro acc hacc x hx; exact hacc x hx
    | cons d rest ih =>
      intro acc hacc x hx
      rw [List.foldl_cons] at hx
      refine ih _ ?_ x hx
      intro y hy
      cases acc with
      | none =>
        dsimp only at hy
        simp only [Option.some.injEq] at hy
        subst hy
        exact weeklyCandidateFrom_gt h' m' d f
      | some e =>
        dsimp only at hy
        split at hy <;> simp only [Option.some.injEq] at hy <;> subst hy
        · exact weeklyCandidateFrom_gt h' m' d f
        · exact hacc e rfl

/-- The reconciler's per-iteration candidate strictly exceeds `potential`;
this is the invariant justifying the `now - potential₀` fuel of
`missedLoop` (the loop runs at most that many iterations before the
source's `while` guard fails). -/
theorem computeNextFor_gt {s : Schedule} {p n : Nat}
    (h : computeNextFor s p = some n) : p < n := by
  unfold computeNextFor at h
  split at h
  · exact getNextOccurrenceFrom_gt h
  · split at h
    · exact getNextWeeklyOccurrenceFrom_gt h
    · cases h

/-- `getNextOccurrence` only returns instants strictly after `now`. -/
theorem getNextOccurrence_gt {ts : String} {now n : Nat}
    (h : getNextOccurrence ts now = some n) : now < n := by
  unfold getNextOccurrence at h
  split at h
  · exact absurd h (by simp)
  · rename_i h' m' _
    simp only [Option.some.injEq] at h
    subst h
    have := dayStart_le_lt now
    split <;> omega

/-- The week-advancing anchor pattern shared by the weekly calculators is
strictly after `now`, whatever whole number of days is added. -/
theorem weekly_anchor_gt (now off k : Nat) :
    now < (if dayStart now + k * msPerDay + off ≤ now then
      dayStart now + k * msPerDay + off + msPerWeek
    else dayStart now + k * msPerDay + off) := by
  have := dayStart_le_lt now
  unfold msPerWeek
  split <;> omega

/-- `getNextWeeklyOccurrence` only returns instants strictly after `now`. -/
theorem getNextWeeklyOccurrence_gt {ts : String} {dow : Int} {now n : Nat}
    (h : getNextWeeklyOccurrence ts dow now = some n) : now < n := by
  unfold getNextWeeklyOccurrence at h
  split at h
  · exact absurd h (by simp)
  · rename_i h' m' _
    simp only [Option.some.injEq] at h
    subst h
    exact weekly_anchor_gt now (timeOffsetMs h' m') _

/-- `carryFlag` preserves the schedule id. -/
theorem carryFlag_scheduleId (persisted : List MissedEntry) (cur : RawMissed) :
    (carryFlag persisted cur).scheduleId = cur.scheduleId := by
  unfold carryFlag
  split <;> rfl

/-- `carryFlag` preserves the missed-run time. -/
theorem carryFlag_missedRunTime (persisted : List MissedEntry) (cur : RawMissed) :
    (carryFlag persisted cur).missedRunTime = cur.missedRunTime := by
  unfold carryFlag
  split <;> rfl

/-- Flagging an entry notified preserves every entry's key. -/
theorem mem_setNotifiedFirst {e : MissedEntry} {sid : String} {t : Nat} :
    ∀ {l : List MissedEntry}, e ∈ setNotifiedFirst sid t l →
    ∃ x ∈ l, e.scheduleId = x.scheduleId ∧ e.missedRunTime = x.missedRunTime := by
  intro l
  induction l with
  | nil => intro h; cases h
  | cons a as ih =>
    intro h
    rw [setNotifiedFirst] at h
    split at h
    · rcases List.mem_cons.mp h with h1 | h1
      · subst h1
        exact ⟨a, List.mem_cons_self a as, rfl, rfl⟩
      · exact ⟨e, List.mem_cons_of_mem a h1, rfl, rfl⟩
    · rcases List.mem_cons.mp h with h1 | h1
      · exact ⟨a, List.mem_cons_self a as, by rw [h1], by rw [h1]⟩
      · obtain ⟨x, hx, h1', h2'⟩ := ih h1
        exact ⟨x, List.mem_cons_of_mem a hx, h1', h2'⟩

/-- The post-notification flag update preserves every entry's key. -/
theorem mem_markNotified {e : MissedEntry} :
    ∀ {batch l : List MissedEntry}, e ∈ markNotified batch l →
    ∃ x ∈ l, e.scheduleId = x.scheduleId ∧ e.missedRunTime = x.missedRunTime := by
  intro batch
  induction batch with
  | nil => intro l h; exact ⟨e, h, rfl, rfl⟩
  | cons b bs ih =>
    intro l h
    have h' : e ∈ markNotified bs (setNotifiedFirst b.scheduleId b.missedRunTime l) := h
    obtain ⟨x, hx, h1, h2⟩ := ih h'
    obtain ⟨y, hy, h1', h2'⟩ := mem_setNotifiedFirst hx
    exact ⟨y, hy, h1.trans h1', h2.trans h2'⟩

/-- Every entry the reconciler persists traces back to an active missed
occurrence whose key survived the tombstone filter: no pending entry's key
appears in the pruned tombstone log. -/
theorem pendingOut_keys_not_tombstoned (schedules : List Schedule) (now : Nat)
    (clearedList : List ClearedEntry) (persisted : List MissedEntry) :
    ∀ e ∈ (checkMissedAlarms schedules now clearedList persisted).pendingOut,
    ∀ c ∈ pruneClearedMissedAlarms now clearedList,
    ¬(c.scheduleId = e.scheduleId ∧ c.missedRunTime = e.missedRunTime) := by
  intro e he c hc hkey
  unfold checkMissedAlarms at he
  split at he
  · simp at he
  · dsimp only at he
    have hnew : ∃ x ∈ newDataOf schedules now clearedList persisted,
        e.scheduleId = x.scheduleId ∧ e.missedRunTime = x.missedRunTime := by
      split at he
      · exact ⟨e, he, rfl, rfl⟩
      · exact mem_markNotified he
    obtain ⟨x, hx, hx1, hx2⟩ := hnew
    unfold newDataOf at hx
    obtain ⟨cur, hcur, hcf⟩ := List.mem_map.mp hx
    unfold activeMissedOf at hcur
    obtain ⟨hmem, hpred⟩ := List.mem_filter.mp hcur
    have hs : c.scheduleId = cur.scheduleId := by
      rw [hkey.1, hx1, ← hcf, carryFlag_scheduleId]
    have ht : c.missedRunTime = cur.missedRunTime := by
      rw [hkey.2, hx2, ← hcf, carryFlag_missedRunTime]
    have htrue : (pruneClearedMissedAlarms now clearedList).any (fun c =>
        c.scheduleId == cur.scheduleId && c.missedRunTime == cur.missedRunTime) = true :=
      List.any_eq_true.mpr ⟨c, hc, by rw [hs, ht]; simp⟩
    simp [htrue] at hpred

/-- C3: for every pair (scheduleId, t) with a ClearedTombstone entry (still
inside the 30-day retention window the data model prescribes), no
reconciliation pass re-introduces a MissedOccurrence with identity key
(scheduleId, t) into the pending list, even if that occurrence is still
mathematically missed relative to the schedule's lastRun. -/
theorem c3_tombstone_suppression (schedules : List Schedule) (now : Nat)
    (clearedList : List ClearedEntry) (persisted : List MissedEntry)
    (sid : String) (t : Nat) (c : ClearedEntry) (hc : c ∈ clearedList)
    (hcs : c.scheduleId = sid) (hct : c.missedRunTime = t)
    (hfresh : now - c.clearedAt < thirtyDaysMs) :
    ∀ e ∈ (checkMissedAlarms schedules now clearedList persisted).pendingOut,
      ¬(e.scheduleId = sid ∧ e.missedRunTime = t) := by
  intro e he hkey
  have hcp : c ∈ pruneClearedMissedAlarms now clearedList := by
    unfold pruneClearedMissedAlarms
    exact List.mem_filter.mpr ⟨hc, decide_eq_true hfresh⟩
  exact pendingOut_keys_not_tombstoned schedules now clearedList persisted e he c hcp
    ⟨hcs.trans hkey.1.symm, hct.trans hkey.2.symm⟩

/-- Witness for C3: Scenario A's schedule is still mathematically missed at
today 09:00 relative to its lastRun, yet the tombstone for that exact key
keeps the pending list free of it. -/
theorem c3_tombstone_suppression_witness :
    clearedA ∈ [clearedA] ∧ nowA - clearedA.clearedAt < thirtyDaysMs ∧
    (∀ e ∈ (checkMissedAlarms [schedA] nowA [clearedA] []).pendingOut,
      ¬(e.scheduleId = "sched-a" ∧ e.missedRunTime = t9A)) :=
  ⟨by decide, by decide,
   c3_tombstone_suppression [schedA] nowA [clearedA] [] "sched-a" t9A clearedA
     (by decide) (by decide) (by decide) (by decide)⟩

/-- C5: an entry whose persisted notification flag is true is never
batched into the missed-schedules notification again — the flag is carried
forward from the persisted pending list, and only entries with a false
flag are notified. -/
theorem c5_no_renotification (schedules : List Schedule) (now : Nat)
    (clearedList : List ClearedEntry) (persisted : List MissedEntry)
    (sid : String) (t : Nat) (p : MissedEntry)
    (hfind : persisted.find? (fun q =>
      q.scheduleId == sid && q.missedRunTime == t) = some p)
    (hflag : p.hasBeenNotified = true) :
    ∀ e ∈ (checkMissedAlarms schedules now clearedList persisted).notified,
      ¬(e.scheduleId = sid ∧ e.missedRunTime = t) := by
  intro e he hkey
  unfold checkMissedAlarms at he
  split at he
  · simp at he
  · dsimp only at he
    unfold batchOf at he
    obtain ⟨hmem, hflagF⟩ := List.mem_filter.mp he
    unfold newDataOf at hmem
    obtain ⟨cur, _hcur, hcf⟩ := List.mem_map.mp hmem
    have hs : cur.scheduleId = sid := by
      rw [← hkey.1, ← hcf, carryFlag_scheduleId]
    have ht : cur.missedRunTime = t := by
      rw [← hkey.2, ← hcf, carryFlag_missedRunTime]
    have hcfe : carryFlag persisted cur = ⟨cur.scheduleId, cur.scheduleName,
        cur.missedRunTime, p.hasBeenNotified⟩ := by
      unfold carryFlag
      simp only [hs, ht, hfind]
    rw [hcf] at hcfe
    have : e.hasBeenNotified = p.hasBeenNotified := by rw [hcfe]
    rw [hflag] at this
    simp [this] at hflagF

/-- Witness for C5: with Scenario A's miss already persisted as notified,
a fresh reconciliation pass batches nothing for that key (indeed it
notifies nothing at all). -/
theorem c5_no_renotification_witness :
    [persistedA].find? (fun q =>
      q.scheduleId == "sched-a" && q.missedRunTime == t9A) = some persistedA ∧
    (∀ e ∈ (checkMissedAlarms [schedA] nowA [] [persistedA]).notified,
      ¬(e.scheduleId = "sched-a" ∧ e.missedRunTime = t9A)) :=
  ⟨by decide,
   c5_no_renotification [schedA] nowA [] [persistedA] "sched-a" t9A persistedA
     (by decide) (by decide)⟩

/-- C1: the recurring-schedule walk retains only the latest missed
occurrence — every schedule contributes at most one raw miss — and in
Scenario A (daily 09:00, lastRun three days ago, now today 14:00) the pass
reports exactly one MissedOccurrence, at today 09:00, not three. -/
theorem c1_latest_missed_only :
    (∀ (s : Schedule) (now : Nat), (missedRawFor now s).length ≤ 1) ∧
    checkMissedAlarms [schedA] nowA [] [] =
      ⟨[⟨"sched-a", "Morning", t9A, true⟩],
       [⟨"sched-a", "Morning", t9A, false⟩], []⟩ := by
  constructor
  · intro s now
    unfold missedRawFor
    split
    · simp
    · split
      · unfold onceMissed
        split
        · split <;> simp
        · simp
      · dsimp only
        split <;> simp
  · decide

/-- C2 (code bug): at the failing input — a `once` schedule whose full
anchor 2020-01-05 09:00 lies in the past and whose lastRun is unset — the
registrar does not clear `calculatedWhen` but advances it to the next
upcoming 09:00 (`wC2`, tomorrow relative to `nowA`), creates a timer for
it, and the subsequent reconciliation pass consequently reports no
MissedOccurrence for the schedule. -/
theorem c2_once_past_anchor_code_behavior :
    registerAlarmsModel nowA [sC2] =
      ([{ sC2 with calculatedWhen := some wC2 }], [⟨"sched-c", wC2, none⟩]) ∧
    nowA < wC2 ∧
    missedRawFor nowA { sC2 with calculatedWhen := some wC2 } = [] := by
  decide

/-- One guarded clear never lowers the effective last-run instant. -/
theorem clearStep_ge (s : Schedule) (t : Nat) :
    lastRunD s ≤ lastRunD (clearStep s t) := by
  unfold clearStep
  split
  · rename_i hcond
    rcases hcond with h1 | h2
    · have hz : lastRunD s = 0 := by
        unfold lastRunD
        unfold optTruthy at h1
        cases hl : s.lastRun with
        | none => rfl
        | some n =>
          rw [hl] at h1
          simp at h1
          simp [h1]
      rw [hz]
      exact Nat.zero_le _
    · unfold lastRunD at *
      simp only [Option.getD_some]
      omega
  · exact Nat.le_refl _

/-- A clear-all pass never lowers the effective last-run instant. -/
theorem foldl_clearStep_ge (ts : List Nat) :
    ∀ s : Schedule, lastRunD s ≤ lastRunD (ts.foldl clearStep s) := by
  induction ts with
  | nil => intro s; exact Nat.le_refl _
  | cons a as ih =>
    intro s
    rw [List.foldl_cons]
    exact (clearStep_ge s a).trans (ih (clearStep s a))

/-- C6: across any sequence of run, clear and reconcile operations under a
monotone wall clock, a schedule's lastRun never decreases — a run writes
the current time, a clear writes the missed instant only when it is a
strict forward step, and reconciliation never writes the schedule. -/
theorem c6_lastRun_monotone (s : Schedule) (ops : List RunOp)
    (h : monotoneRunB s ops = true) :
    lastRunD s ≤ lastRunD (applyOps s ops) := by
  induction ops generalizing s with
  | nil => exact Nat.le_refl _
  | cons op rest ih =>
    rw [monotoneRunB, Bool.and_eq_true] at h
    obtain ⟨h1, h2⟩ := h
    have step : lastRunD s ≤ lastRunD (applyOp s op) := by
      cases op with
      | runNow n =>
        unfold runOpClockOk at h1
        exact of_decide_eq_true h1
      | clearEntry t => exact clearStep_ge s t
      | clearAll ts => exact foldl_clearStep_ge ts s
      | reconcile => exact Nat.le_refl _
    exact step.trans (ih (applyOp s op) h2)

/-- Witness for C6: a run at `nowA`, a backward clear, a reconcile and a
clear-all applied to a fresh schedule keep `lastRun` non-decreasing. -/
theorem c6_lastRun_monotone_witness :
    monotoneRunB s6 ops6 = true ∧ lastRunD s6 ≤ lastRunD (applyOps s6 ops6) :=
  ⟨by decide, c6_lastRun_monotone s6 ops6 (by decide)⟩

/-- C7 counterexample: a `once` schedule whose `calculatedWhen` equals
`now` exactly satisfies every condition of the claimed classification
(`calculatedWhen` set, `≤ now`, `lastRun` unset), yet the pass classifies
it as not missed — the code compares with strict `<`. -/
theorem c7_once_boundary_counterexample :
    sC7.repeats = "once" ∧ sC7.calculatedWhen = some nowA ∧
    sC7.lastRun = none ∧ nowA ≤ nowA ∧ missedRawFor nowA sC7 = [] := by
  decide

/-- C7 (amended): a `once` schedule with a non-empty id is classified
missed iff `calculatedWhen` is set to a nonzero instant that is strictly
less than `now` and `lastRun` is falsy or strictly less than
`calculatedWhen`; an unset `calculatedWhen` is never missed. -/
theorem c7_once_missed_iff (id name ts : String) (urls : List String)
    (days : List Int) (lr : Option Nat) (cw now : Nat) (hid : id ≠ "") :
    (missedRawFor now ⟨id, name, urls, ts, "once", days, lr, some cw⟩ ≠ [] ↔
      (cw ≠ 0 ∧ cw < now ∧ (optTruthy lr = false ∨ lr.getD 0 < cw))) ∧
    missedRawFor now ⟨id, name, urls, ts, "once", days, lr, none⟩ = [] := by
  constructor
  · unfold missedRawFor
    dsimp only
    rw [if_neg hid, if_pos rfl]
    unfold onceMissed
    dsimp only
    split
    · rename_i hcond
      exact iff_of_true (by simp) hcond
    · rename_i hcond
      exact iff_of_false (by simp) hcond
  · unfold missedRawFor onceMissed
    dsimp only
    rw [if_neg hid, if_pos rfl]

/-- Witness for C7's amended classification at a concrete boundary-free
input. -/
theorem c7_once_missed_iff_witness :
    ("sched-w" : String) ≠ "" ∧
    ((missedRawFor 10 ⟨"sched-w", "W", [], "09:00", "once", [], none, some 5⟩ ≠ [] ↔
      ((5 : Nat) ≠ 0 ∧ (5 : Nat) < 10 ∧
        (optTruthy none = false ∨ (none : Option Nat).getD 0 < 5))) ∧
     missedRawFor 10 ⟨"sched-w", "W", [], "09:00", "once", [], none, none⟩ = []) :=
  ⟨by decide,
   c7_once_missed_iff "sched-w" "W" "09:00" [] [] none 5 10 (by decide)⟩

/-- C4: for every time string parsing to a valid hour/minute pair and every
reference instant, the daily calculator returns an instant strictly after
`fromTs`, at that hour and minute, on `fromTs`'s calendar day or the
next — never `fromTs` itself. -/
theorem c4_next_daily_strict_progress (ts : String) (h m fromTs : Nat)
    (hp : parseClockTime ts = some (h, m)) :
    ∃ t, getNextOccurrenceFrom ts fromTs = some t ∧ fromTs < t ∧
      hourOf t = h ∧ minuteOf t = m ∧
      (dayIndex t = dayIndex fromTs ∨ dayIndex t = dayIndex fromTs + 1) := by
  obtain ⟨hh, hm⟩ := parseClockTime_bounds hp
  unfold getNextOccurrenceFrom
  rw [hp]
  dsimp only
  by_cases hle : dayStart fromTs + timeOffsetMs h m ≤ fromTs
  · rw [if_pos hle]
    have heq : dayStart fromTs + timeOffsetMs h m + msPerDay
        = (dayIndex fromTs + 1) * msPerDay + timeOffsetMs h m := by
      unfold dayStart
      ring
    obtain ⟨h1, h2, h3⟩ := clock_fields_of_aligned (dayIndex fromTs + 1) hh hm
    rw [heq]
    refine ⟨_, rfl, ?_, h1, h2, Or.inr h3⟩
    unfold dayIndex msPerDay timeOffsetMs msPerHour msPerMinute
    omega
  · rw [if_neg hle]
    have heq : dayStart fromTs + timeOffsetMs h m
        = dayIndex fromTs * msPerDay + timeOffsetMs h m := rfl
    obtain ⟨h1, h2, h3⟩ := clock_fields_of_aligned (dayIndex fromTs) hh hm
    rw [heq]
    exact ⟨_, rfl, by omega, h1, h2, Or.inl h3⟩

/-- Witness for C4 at Scenario A's reconciliation instant. -/
theorem c4_next_daily_strict_progress_witness :
    parseClockTime "09:00" = some (9, 0) ∧
    (∃ t, getNextOccurrenceFrom "09:00" nowA = some t ∧ nowA < t ∧
      hourOf t = 9 ∧ minuteOf t = 0 ∧
      (dayIndex t = dayIndex nowA ∨ dayIndex t = dayIndex nowA + 1)) :=
  ⟨by decide, c4_next_daily_strict_progress "09:00" 9 0 nowA (by decide)⟩

/-- C8: a time string that fails the shared hour/minute validation makes
every calculator — both `from`-based variants and both registrar
variants — return the `null` sentinel; the `from`-based weekly variant
also returns the sentinel for an empty weekday set; and the registrar
creates no timer for a daily, weekly or once schedule carrying such a
string. -/
theorem c8_invalid_time_sentinel (ts : String) (hp : parseClockTime ts = none) :
    (∀ f, getNextOccurrenceFrom ts f = none) ∧
    (∀ days f, getNextWeeklyOccurrenceFrom ts days f = none) ∧
    (∀ now, getNextOccurrence ts now = none) ∧
    (∀ dow now, getNextWeeklyOccurrence ts dow now = none) ∧
    (∀ (s : String) (f : Nat), getNextWeeklyOccurrenceFrom s [] f = none) ∧
    (∀ (id name : String) (urls : List String) (days : List Int)
        (lr cw : Option Nat) (now : Nat),
      alarmsForSchedule now ⟨id, name, urls, ts, "daily", days, lr, cw⟩ = [] ∧
      alarmsForSchedule now ⟨id, name, urls, ts, "weekly", days, lr, cw⟩ = [] ∧
      alarmsForSchedule now
        (updateOnceCalculatedWhen now ⟨id, name, urls, ts, "once", days, lr, cw⟩) = []) := by
  have hdaily : ∀ now, getNextOccurrence ts now = none := by
    intro now
    unfold getNextOccurrence
    rw [hp]
  have hweekly : ∀ (dow : Int) (now : Nat), getNextWeeklyOccurrence ts dow now = none := by
    intro dow now
    unfold getNextWeeklyOccurrence
    rw [hp]
  refine ⟨?_, ?_, hdaily, hweekly, ?_, ?_⟩
  · intro f
    unfold getNextOccurrenceFrom
    rw [hp]
  · intro days f
    unfold getNextWeeklyOccurrenceFrom
    rw [hp]
  · intro s f
    unfold getNextWeeklyOccurrenceFrom
    cases hps : parseClockTime s with
    | none => rfl
    | some pr =>
      cases pr
      rfl
  · intro id name urls days lr cw now
    refine ⟨?_, ?_, ?_⟩
    · unfold alarmsForSchedule
      dsimp only
      rw [if_neg (by decide), if_pos rfl, hdaily now]
    · unfold alarmsForSchedule
      dsimp only
      rw [if_neg (by decide), if_neg (by decide)]
      by_cases hd : days = []
      · rw [if_neg (by simp [hd])]
      · rw [if_pos ⟨rfl, hd⟩]
        clear hd
        induction days with
        | nil => rfl
        | cons d rest ih =>
          rw [List.foldr_cons, hweekly d now]
          exact ih
    · unfold updateOnceCalculatedWhen
      dsimp only
      rw [if_pos rfl, hdaily now]
      unfold alarmsForSchedule
      dsimp only
      rw [if_pos rfl]

/-- Witness for C8 at the unparseable string `"banana"` (its split on
`':'` has no second segment, so the minute parses as `NaN`). -/
theorem c8_invalid_time_sentinel_witness :
    parseClockTime "banana" = none ∧
    ((∀ f, getNextOccurrenceFrom "banana" f = none) ∧
     (∀ days f, getNextWeeklyOccurrenceFrom "banana" days f = none) ∧
     (∀ now, getNextOccurrence "banana" now = none) ∧
     (∀ dow now, getNextWeeklyOccurrence "banana" dow now = none) ∧
     (∀ (s : String) (f : Nat), getNextWeeklyOccurrenceFrom s [] f = none) ∧
     (∀ (id name : String) (urls : List String) (days : List Int)
         (lr cw : Option Nat) (now : Nat),
       alarmsForSchedule now ⟨id, name, urls, "banana", "daily", days, lr, cw⟩ = [] ∧
       alarmsForSchedule now ⟨id, name, urls, "banana", "weekly", days, lr, cw⟩ = [] ∧
       alarmsForSchedule now
         (updateOnceCalculatedWhen now
           ⟨id, name, urls, "banana", "once", days, lr, cw⟩) = [])) :=
  ⟨by decide, c8_invalid_time_sentinel "banana" (by decide)⟩

/-- With a valid time string the registrar's daily calculator always
produces an instant, strictly after `now`. -/
theorem getNextOccurrence_valid {ts : String} {h m : Nat} (now : Nat)
    (hp : parseClockTime ts = some (h, m)) :
    ∃ w, getNextOccurrence ts now = some w ∧ now < w := by
  unfold getNextOccurrence
  rw [hp]
  dsimp only
  refine ⟨_, rfl, ?_⟩
  have := dayStart_le_lt now
  split <;> omega

/-- With a valid time string the registrar's weekly calculator always
produces an instant, strictly after `now`. -/
theorem getNextWeeklyOccurrence_valid {ts : String} {h m : Nat} (dow : Int)
    (now : Nat) (hp : parseClockTime ts = some (h, m)) :
    ∃ w, getNextWeeklyOccurrence ts dow now = some w ∧ now < w := by
  unfold getNextWeeklyOccurrence
  rw [hp]
  dsimp only
  exact ⟨_, rfl, weekly_anchor_gt now (timeOffsetMs h m) _⟩

/-- The registrar's weekly loop creates exactly one alarm per listed
weekday, named by the schedule id and the weekday, anchored at that
weekday's next occurrence, with a 10080-minute period. -/
theorem weeklyAlarmsFold (idStr ts : String) (now h m : Nat)
    (hp : parseClockTime ts = some (h, m)) :
    ∀ days : List Int,
    days.foldr (fun dow acc =>
      (match getNextWeeklyOccurrence ts dow now with
       | some w =>
         if w ≠ 0 then ([⟨idStr ++ "-" ++ toString dow, w, some 10080⟩] : List AlarmSpec)
         else []
       | none => []) ++ acc) [] =
    days.map (fun dow => (⟨idStr ++ "-" ++ toString dow,
      (getNextWeeklyOccurrence ts dow now).getD 0, some 10080⟩ : AlarmSpec)) := by
  intro days
  induction days with
  | nil => rfl
  | cons d rest ih =>
    rw [List.foldr_cons, List.map_cons]
    obtain ⟨w, hw, hgt⟩ := getNextWeeklyOccurrence_valid d now hp
    rw [hw, ih]
    dsimp only
    rw [if_pos (by omega : w ≠ 0)]
    simp

/-- C9: for a daily schedule with a valid time the registrar creates
exactly one periodic timer, named by the schedule id, anchored at the next
daily occurrence with a 1440-minute period; for a weekly schedule with a
non-empty weekday list it creates exactly one periodic timer per listed
weekday, named id-weekday, anchored at that weekday's next occurrence with
a 10080-minute period (so a Monday-and-Wednesday schedule gets exactly two
timers). -/
theorem c9_registrar_timer_shape (id name ts : String) (urls : List String)
    (days : List Int) (lr cw : Option Nat) (now h m : Nat)
    (hp : parseClockTime ts = some (h, m)) :
    (∃ w, getNextOccurrence ts now = some w ∧ now < w ∧
      alarmsForSchedule now ⟨id, name, urls, ts, "daily", days, lr, cw⟩ =
        [⟨id, w, some 1440⟩]) ∧
    (days ≠ [] →
      alarmsForSchedule now ⟨id, name, urls, ts, "weekly", days, lr, cw⟩ =
        days.map (fun dow => ⟨id ++ "-" ++ toString dow,
          (getNextWeeklyOccurrence ts dow now).getD 0, some 10080⟩) ∧
      (alarmsForSchedule now ⟨id, name, urls, ts, "weekly", days, lr, cw⟩).length =
        days.length) := by
  constructor
  · obtain ⟨w, hw, hgt⟩ := getNextOccurrence_valid now hp
    refine ⟨w, hw, hgt, ?_⟩
    unfold alarmsForSchedule
    dsimp only
    rw [if_neg (by decide), if_pos rfl, hw]
    dsimp only
    rw [if_pos (by omega : w ≠ 0)]
  · intro hd
    have hshape : alarmsForSchedule now ⟨id, name, urls, ts, "weekly", days, lr, cw⟩ =
        days.map (fun dow => ⟨id ++ "-" ++ toString dow,
          (getNextWeeklyOccurrence ts dow now).getD 0, some 10080⟩) := by
      unfold alarmsForSchedule
      dsimp only
      rw [if_neg (by decide), if_neg (by decide), if_pos ⟨rfl, hd⟩]
      exact weeklyAlarmsFold id ts now h m hp days
    exact ⟨hshape, by rw [hshape, List.length_map]⟩

/-- Witness for C9 at Scenario B: weekly 09:00 on Monday and Wednesday,
now a Tuesday 10:00, yields exactly two 7-day periodic timers, one next
Wednesday 09:00 (day 6) and one next Monday 09:00 (day 11). -/
theorem c9_registrar_timer_shape_witness :
    parseClockTime "09:00" = some (9, 0) ∧
    (alarmsForSchedule nowB schedB =
      [(1 : Int), 3].map (fun dow => (⟨"sched-b" ++ "-" ++ toString dow,
        (getNextWeeklyOccurrence "09:00" dow nowB).getD 0, some 10080⟩ : AlarmSpec)) ∧
     (alarmsForSchedule nowB schedB).length = [(1 : Int), 3].length) ∧
    alarmsForSchedule nowB schedB =
      [⟨"sched-b-1", 11 * msPerDay + 9 * msPerHour, some 10080⟩,
       ⟨"sched-b-3", 6 * msPerDay + 9 * msPerHour, some 10080⟩] :=
  ⟨by decide,
   (c9_registrar_timer_shape "sched-b" "Standup" "09:00" ["https://example.com"]
     [1, 3] none none nowB 9 0 (by decide)).2 (by decide),
   by decide⟩

/-- Adding whole days plus a sub-day offset to a day's midnight advances
the day index by exactly the whole-day count. -/
theorem dayIndex_aligned (f k off : Nat) (hoff : off < msPerDay) :
    dayIndex (dayStart f + k * msPerDay + off) = dayIndex f + k := by
  unfold dayStart dayIndex msPerDay at *
  omega

/-- Folding a week into the whole-day count of an anchor expression. -/
theorem week_as_days (a k c : Nat) :
    a + k * msPerDay + c + msPerWeek = a + (k + 7) * msPerDay + c := by
  unfold msPerWeek
  ring

/-- A weekday candidate of the reconciliation walk lands on the weekday
congruent to the stored value modulo 7. -/
theorem weeklyCandidateFrom_day (h m : Nat) (hh : h ≤ 23) (hm : m ≤ 59)
    (d : Int) (f : Nat) :
    jsGetDay (weeklyCandidateFrom h m d f) = (d % 7).toNat := by
  have hoff := timeOffsetMs_lt hh hm
  unfold weeklyCandidateFrom
  dsimp only
  generalize hK : ((d - ((jsGetDay f : Nat) : Int) + 7) % 7).toNat = K
  unfold jsGetDay at hK ⊢
  split
  · rw [week_as_days, dayIndex_aligned f (K + 7) (timeOffsetMs h m) hoff]
    omega
  · rw [dayIndex_aligned f K (timeOffsetMs h m) hoff]
    omega

/-- C10: the editor stores weekdays as Monday = 1 … Sunday = 7 while the
calculators compare against `getDay()`'s Sunday = 0 … Saturday = 6; because
days-to-add is `(dayOfWeek - currentDay + 7) % 7`, for every stored value
`d` in 1–7 both weekly calculators return an occurrence on the local
weekday congruent to `d` modulo 7 — Sunday stored as 7 still lands on a
Sunday, so the two numbering conventions never misplace a timer. -/
theorem c10_weekday_convention (ts : String) (h m : Nat) (d : Int)
    (hp : parseClockTime ts = some (h, m)) (hd1 : 1 ≤ d) (hd7 : d ≤ 7) :
    (∀ now, ∃ w, getNextWeeklyOccurrence ts d now = some w ∧
      jsGetDay w = (d % 7).toNat) ∧
    (∀ f, ∃ w, getNextWeeklyOccurrenceFrom ts [d] f = some w ∧
      jsGetDay w = (d % 7).toNat) := by
  obtain ⟨hh, hm'⟩ := parseClockTime_bounds hp
  constructor
  · intro now
    unfold getNextWeeklyOccurrence
    rw [hp]
    dsimp only
    refine ⟨_, rfl, ?_⟩
    have hoff := timeOffsetMs_lt hh hm'
    generalize hK : ((d - ((jsGetDay now : Nat) : Int) + 7) % 7).toNat = K
    unfold jsGetDay at hK ⊢
    by_cases hc : K = 0 ∧ dayStart now + timeOffsetMs h m ≤ now
    · rw [if_pos hc]
      split
      · rw [week_as_days, dayIndex_aligned now (7 + 7) (timeOffsetMs h m) hoff]
        omega
      · rw [dayIndex_aligned now 7 (timeOffsetMs h m) hoff]
        omega
    · rw [if_neg hc]
      split
      · rw [week_as_days, dayIndex_aligned now (K + 7) (timeOffsetMs h m) hoff]
        omega
      · rw [dayIndex_aligned now K (timeOffsetMs h m) hoff]
        omega
  · intro f
    unfold getNextWeeklyOccurrenceFrom
    rw [hp]
    dsimp only
    rw [List.foldl_cons, List.foldl_nil]
    dsimp only
    exact ⟨_, rfl, weeklyCandidateFrom_day h m hh hm' d f⟩

/-- Witness for C10: Sunday stored as 7, from Scenario B's Tuesday 10:00,
lands on a Sunday for both calculators. -/
theorem c10_weekday_convention_witness :
    parseClockTime "09:00" = some (9, 0) ∧ (1 : Int) ≤ 7 ∧ (7 : Int) ≤ 7 ∧
    ((∀ now, ∃ w, getNextWeeklyOccurrence "09:00" 7 now = some w ∧
      jsGetDay w = ((7 : Int) % 7).toNat) ∧
     (∀ f, ∃ w, getNextWeeklyOccurrenceFrom "09:00" [7] f = some w ∧
      jsGetDay w = ((7 : Int) % 7).toNat)) :=
  ⟨by decide, by decide, by decide,
   c10_weekday_convention "09:00" 9 0 7 (by decide) (by decide) (by decide)⟩

/-- Once `potential` has reached `now`, the walk returns its accumulated
best regardless of remaining fuel (the source's `while` guard fails). -/
theorem missedLoop_exit (s : Schedule) (now fuel potential : Nat)
    (best : Option Nat) (h : now ≤ potential) :
    missedLoop s now fuel potential best = best := by
  cases fuel with
  | zero => rfl
  | succ f =>
    rw [missedLoop, if_neg (by omega)]

/-- The walk's result does not depend on the fuel bound, as long as the
fuel is at least `now - potential`: every iteration strictly increases
`potential` (`computeNextFor_gt`), so `missedRawFor`'s choice of
`now - potential₀` reproduces the unbounded source loop exactly. -/
theorem missedLoop_fuel_stable (s : Schedule) (now : Nat) :
    ∀ (fuel fuel' potential : Nat) (best : Option Nat),
      now - potential ≤ fuel → now - potential ≤ fuel' →
      missedLoop s now fuel potential best = missedLoop s now fuel' potential best := by
  intro fuel
  induction fuel with
  | zero =>
    intro fuel' potential best h h'
    have hex : now ≤ potential := by omega
    rw [missedLoop_exit s now 0 potential best hex,
      missedLoop_exit s now fuel' potential best hex]
  | succ f ih =>
    intro fuel' potential best h h'
    by_cases hp : potential < now
    · obtain ⟨f', rfl⟩ : ∃ f', fuel' = f' + 1 := by
        cases fuel' with
        | zero => omega
        | succ x => exact ⟨x, rfl⟩
      rw [missedLoop, missedLoop, if_pos hp, if_pos hp]
      cases hc : computeNextFor s potential with
      | none => rfl
      | some next =>
        dsimp only
        by_cases hn : next ≠ 0 ∧ next < now
        · rw [if_pos hn, if_pos hn]
          have hgt := computeNextFor_gt hc
          exact ih f' next _ (by omega) (by omega)
        · rw [if_neg hn, if_neg hn]
    · rw [missedLoop_exit s now _ _ _ (by omega),
        missedLoop_exit s now _ _ _ (by omega)]
